import Mathlib

/-!
A verification development for a 9×9 Sudoku solver written in C++
(`sudoku.cpp`).  The program state is shallowly embedded: a `Cell` is an
assigned digit (0 when unassigned) together with a candidate bitmask kept
in an unsigned 32-bit word; a `Board` maps flat positions `row * 9 + col`
to cells.  `Board.assign` mirrors the constraint propagation of
`Board::assign`, `Board.find` mirrors the recursive enumeration of
`Board::find`, `Board.printChars` mirrors `Board::print`, and `parseChar`,
`parseInput` and `mainRun` mirror the input loop of `main`.
-/

/-- One grid cell, mirroring `struct Cell`: `assigned_` is the digit 1-9
assigned to this cell or 0 if unassigned; `assignable_` has bits 1-9 set
for the digits that could still be assigned. -/
structure Cell where
  assigned_ : Nat
  assignable_ : Nat
deriving DecidableEq

/-- `Cell::assignable()`: the C++ implicit `unsigned → bool` conversion,
true iff the candidate mask is nonzero. -/
def Cell.assignable (c : Cell) : Bool :=
  c.assignable_ != 0

/-- `Cell::assignable(int dig)`: `assignable_ & (1 << dig)`, nonzero iff
`dig` is still a candidate. -/
def Cell.assignableDig (c : Cell) (dig : Nat) : Bool :=
  (c.assignable_ &&& (1 <<< dig)) != 0

/-- `Cell::cant_assign(int dig)`: `assignable_ &= ~(1 << dig)`, with the
32-bit complement of the C++ `unsigned` made explicit. -/
def Cell.cant_assign (c : Cell) (dig : Nat) : Cell :=
  { c with assignable_ := c.assignable_ &&& (4294967295 ^^^ (1 <<< dig)) }

/-- The `Cell` default constructor: unassigned, with bits 1-9 set. -/
def Cell.init : Cell :=
  { assigned_ := 0,
    assignable_ := (1 <<< 9) ||| (1 <<< 8) ||| (1 <<< 7) ||| (1 <<< 6) |||
                   (1 <<< 5) ||| (1 <<< 4) ||| (1 <<< 3) ||| (1 <<< 2) ||| (1 <<< 1) }

/-- `struct Board` holds `Cell cells[81]` indexed by `row * 9 + col`;
we embed it as a function from flat positions to cells (only positions
below 81 are ever accessed by the program). -/
abbrev Board : Type := Nat → Cell

/-- A default-constructed `Board`: every cell default-constructed. -/
def Board.init : Board := fun _ => Cell.init

/-- Overwrite the cell at flat position `j` (an array store). -/
def Board.setCell (b : Board) (j : Nat) (c : Cell) : Board :=
  fun i => if i = j then c else b i

/-- `cell(j).cant_assign(dig)` as a board-to-board store. -/
def Board.forbidAt (b : Board) (j dig : Nat) : Board :=
  b.setCell j ((b j).cant_assign dig)

/-- `Board::assign(int pos, int dig)`: set the cell's `assigned_`, then
run the three propagation loops (column, row, 3×3 box) exactly as the
source does. -/
def Board.assign (b : Board) (pos dig : Nat) : Board :=
  let row := pos / 9
  let col := pos % 9
  let b0 := b.setCell pos { b pos with assigned_ := dig }
  let b1 := (List.range 9).foldl (fun bb r => bb.forbidAt (r * 9 + col) dig) b0
  let b2 := (List.range 9).foldl (fun bb c => bb.forbidAt (row * 9 + c) dig) b1
  let rb := row - row % 3
  let cb := col - col % 3
  (List.range 3).foldl (fun bb r =>
    (List.range 3).foldl (fun bb2 c => bb2.forbidAt ((rb + r) * 9 + (cb + c)) dig) bb) b2

/-- The flat positions visited by the column loop of `Board::assign`. -/
def colPositions (pos : Nat) : List Nat :=
  (List.range 9).map (fun r => r * 9 + pos % 9)

/-- The flat positions visited by the row loop of `Board::assign`. -/
def rowPositions (pos : Nat) : List Nat :=
  (List.range 9).map (fun c => (pos / 9) * 9 + c)

/-- The flat positions visited by the box loop of `Board::assign`. -/
def boxPositions (pos : Nat) : List Nat :=
  ((List.range 3).map (fun r =>
    (List.range 3).map (fun c =>
      ((pos / 9 - pos / 9 % 3) + r) * 9 + ((pos % 9 - pos % 9 % 3) + c)))).flatten

/-- All positions whose candidate mask is touched by `Board::assign pos`. -/
def unitPositions (pos : Nat) : List Nat :=
  colPositions pos ++ (rowPositions pos ++ boxPositions pos)

/-- Clearing the same mask bit twice is the same as clearing it once. -/
theorem Nat.land_mask_idem (x m : Nat) : x &&& m &&& m = x &&& m := by
  apply Nat.eq_of_testBit_eq
  intro k
  simp [Nat.testBit_land, Bool.and_assoc]

/-- `cant_assign` is idempotent. -/
theorem Cell.cant_assign_idem (c : Cell) (dig : Nat) :
    (c.cant_assign dig).cant_assign dig = c.cant_assign dig := by
  simp [Cell.cant_assign, Nat.land_mask_idem]

/-- `cant_assign` does not change the assigned digit. -/
theorem Cell.cant_assign_assigned (c : Cell) (dig : Nat) :
    (c.cant_assign dig).assigned_ = c.assigned_ := rfl

/-- Pointwise effect of folding `forbidAt` over a list of positions:
positions in the list get the digit cleared once, others are untouched. -/
theorem Board.forbid_foldl_apply (L : List Nat) (b : Board) (dig i : Nat) :
    (L.foldl (fun bb j => bb.forbidAt j dig) b) i =
      if i ∈ L then (b i).cant_assign dig else b i := by
  induction L generalizing b with
  | nil => simp
  | cons j L ih =>
    simp only [List.foldl_cons, ih]
    by_cases hij : i = j
    · subst hij
      by_cases hiL : i ∈ L <;>
        simp [hiL, Board.forbidAt, Board.setCell, Cell.cant_assign_idem]
    · by_cases hiL : i ∈ L <;>
        simp [hiL, hij, Board.forbidAt, Board.setCell]

/-- `Board.assign` is the single fold of `forbidAt` over `unitPositions`
applied after the `assigned_` store. -/
theorem Board.assign_eq_foldl (b : Board) (pos dig : Nat) :
    b.assign pos dig =
      (unitPositions pos).foldl (fun bb j => bb.forbidAt j dig)
        (b.setCell pos { b pos with assigned_ := dig }) := by
  unfold Board.assign unitPositions colPositions rowPositions boxPositions
  simp only [List.foldl_append, List.foldl_flatten, List.foldl_map]

/-- Pointwise characterisation of `Board.assign`. -/
theorem Board.assign_apply (b : Board) (pos dig i : Nat) :
    b.assign pos dig i =
      (if i ∈ unitPositions pos then
        ((b.setCell pos { b pos with assigned_ := dig }) i).cant_assign dig
      else (b.setCell pos { b pos with assigned_ := dig }) i) := by
  rw [Board.assign_eq_foldl, Board.forbid_foldl_apply]

/-- `assign` writes the digit at `pos` and leaves every other `assigned_`
field unchanged. -/
theorem Board.assign_assigned (b : Board) (pos dig i : Nat) :
    (b.assign pos dig i).assigned_ = if i = pos then dig else (b i).assigned_ := by
  rw [Board.assign_apply]
  by_cases hip : i = pos
  · subst hip
    by_cases hmem : i ∈ unitPositions i <;>
      simp [hmem, Board.setCell, Cell.cant_assign_assigned]
  · by_cases hmem : i ∈ unitPositions pos <;>
      simp [hmem, hip, Board.setCell, Cell.cant_assign_assigned]

/-- `assign` masks the candidate set of every touched position and leaves
every other candidate set unchanged. -/
theorem Board.assign_assignable (b : Board) (pos dig i : Nat) :
    (b.assign pos dig i).assignable_ =
      if i ∈ unitPositions pos then
        (b i).assignable_ &&& (4294967295 ^^^ (1 <<< dig))
      else (b i).assignable_ := by
  rw [Board.assign_apply]
  by_cases hip : i = pos
  · subst hip
    by_cases hmem : i ∈ unitPositions i <;>
      simp [hmem, Board.setCell, Cell.cant_assign]
  · by_cases hmem : i ∈ unitPositions pos <;>
      simp [hmem, hip, Board.setCell, Cell.cant_assign]

/-- The row/column/box relation used throughout: `sees pos i` holds when
`i` is in the same row, column, or 3×3 box as `pos` (this includes
`i = pos` itself). -/
abbrev sees (pos i : Nat) : Prop :=
  i / 9 = pos / 9 ∨ i % 9 = pos % 9 ∨
    (i / 9 / 3 = pos / 9 / 3 ∧ i % 9 / 3 = pos % 9 / 3)

/-- For a valid position, the positions touched by `assign` are exactly
the in-range positions in the same row, column, or box. -/
theorem mem_unitPositions (pos i : Nat) (hpos : pos < 81) :
    i ∈ unitPositions pos ↔ (i < 81 ∧ sees pos i) := by
  unfold unitPositions colPositions rowPositions boxPositions
  simp only [List.mem_append, List.mem_flatten, List.mem_map, List.mem_range]
  constructor
  · rintro (⟨r, hr, rfl⟩ | ⟨c, hc, rfl⟩ | ⟨l, ⟨r, hr, rfl⟩, hil⟩)
    · refine ⟨by omega, Or.inr (Or.inl (by omega))⟩
    · refine ⟨by omega, Or.inl (by omega)⟩
    · rw [List.mem_map] at hil
      obtain ⟨c, hc, rfl⟩ := hil
      rw [List.mem_range] at hc
      refine ⟨by omega, Or.inr (Or.inr ⟨by omega, by omega⟩)⟩
  · rintro ⟨hi, hrow | hcol | ⟨hbr, hbc⟩⟩
    · exact Or.inr (Or.inl ⟨i % 9, by omega, by omega⟩)
    · exact Or.inl ⟨i / 9, by omega, by omega⟩
    · refine Or.inr (Or.inr ?_)
      refine ⟨(List.range 3).map (fun c =>
        ((pos / 9 - pos / 9 % 3) + i / 9 % 3) * 9 + ((pos % 9 - pos % 9 % 3) + c)),
        ⟨i / 9 % 3, by omega, rfl⟩, ?_⟩
      rw [List.mem_map]
      exact ⟨i % 9 % 3, List.mem_range.mpr (by omega), by omega⟩

/-- `assignableDig` is bit membership in the candidate mask. -/
theorem Cell.assignableDig_eq_testBit (c : Cell) (dig : Nat) :
    c.assignableDig dig = c.assignable_.testBit dig := by
  unfold Cell.assignableDig
  rw [Nat.shiftLeft_eq, one_mul, Nat.and_two_pow]
  cases h : c.assignable_.testBit dig <;> simp [h]

/-- Bit `dig` of the 32-bit complement mask is clear (for `dig < 32`). -/
theorem mask_testBit_self (dig : Nat) (hd : dig < 32) :
    (4294967295 ^^^ (1 <<< dig)).testBit dig = false := by
  rw [Nat.shiftLeft_eq, one_mul]
  rw [show (4294967295 : Nat) = 2 ^ 32 - 1 by norm_num]
  rw [Nat.testBit_xor, Nat.testBit_two_pow_sub_one, Nat.testBit_two_pow]
  simp [hd]

/-- Every other low bit of the 32-bit complement mask is set. -/
theorem mask_testBit_other (dig k : Nat) (hk : k < 32) (hne : k ≠ dig) :
    (4294967295 ^^^ (1 <<< dig)).testBit k = true := by
  rw [Nat.shiftLeft_eq, one_mul]
  rw [show (4294967295 : Nat) = 2 ^ 32 - 1 by norm_num]
  rw [Nat.testBit_xor, Nat.testBit_two_pow_sub_one, Nat.testBit_two_pow]
  simp [hk, Ne.symm hne]

/-- `cant_assign dig` clears the candidate bit for `dig`. -/
theorem Cell.cant_assign_self (c : Cell) (dig : Nat) (hd : dig < 32) :
    (c.cant_assign dig).assignableDig dig = false := by
  rw [Cell.assignableDig_eq_testBit]
  simp [Cell.cant_assign, Nat.testBit_land, mask_testBit_self dig hd]

/-- `cant_assign dig` leaves every other low candidate bit unchanged. -/
theorem Cell.cant_assign_other (c : Cell) (dig k : Nat) (hk : k < 32) (hne : k ≠ dig) :
    (c.cant_assign dig).assignableDig k = c.assignableDig k := by
  rw [Cell.assignableDig_eq_testBit, Cell.assignableDig_eq_testBit]
  simp [Cell.cant_assign, Nat.testBit_land, mask_testBit_other dig k hk hne]

/-- A cell with some candidate digit has a nonzero mask. -/
theorem Cell.assignable_of_assignableDig (c : Cell) (dig : Nat)
    (h : c.assignableDig dig = true) : c.assignable = true := by
  rw [Cell.assignableDig_eq_testBit] at h
  simp only [Cell.assignable, bne_iff_ne, ne_eq]
  intro h0
  rw [h0] at h
  simp [Nat.zero_testBit] at h

/-- Candidate bits only get cleared by `assign`, never set. -/
theorem Board.assign_assignableDig_mono (b : Board) (pos dig i k : Nat)
    (h : ((b.assign pos dig) i).assignableDig k = true) :
    (b i).assignableDig k = true := by
  rw [Cell.assignableDig_eq_testBit] at h ⊢
  rw [Board.assign_assignable] at h
  by_cases hmem : i ∈ unitPositions pos
  · rw [if_pos hmem, Nat.testBit_land, Bool.and_eq_true] at h
    exact h.1
  · rwa [if_neg hmem] at h

/-- The number of unassigned cells among the 81 real positions. -/
def Board.emptyCount (b : Board) : Nat :=
  ((Finset.range 81).filter (fun i => (b i).assigned_ = 0)).card

/-- Assigning a nonzero digit to an in-range empty cell strictly decreases
the number of empty cells. -/
theorem Board.emptyCount_assign_lt (b : Board) (pos dig : Nat)
    (hpos : pos < 81) (h0 : (b pos).assigned_ = 0) (hd : dig ≠ 0) :
    (b.assign pos dig).emptyCount < b.emptyCount := by
  apply Finset.card_lt_card
  rw [Finset.ssubset_iff_of_subset]
  · refine ⟨pos, ?_, ?_⟩
    · simp [Finset.mem_filter, Finset.mem_range, hpos, h0]
    · simp [Finset.mem_filter, Board.assign_assigned, hd]
  · intro i hi
    simp only [Finset.mem_filter, Finset.mem_range] at hi ⊢
    refine ⟨hi.1, ?_⟩
    have h2 := hi.2
    rw [Board.assign_assigned] at h2
    by_cases hip : i = pos
    · rw [if_pos hip] at h2
      exact absurd h2 hd
    · rwa [if_neg hip] at h2

/-- The scan loop at the head of `Board::find`: starting at `pos`, skip
forward over assigned cells; stops at the first unassigned cell or at 81. -/
def Board.skipAssigned (b : Board) (pos : Nat) : Nat :=
  if pos < 81 then
    if (b pos).assigned_ ≠ 0 then b.skipAssigned (pos + 1) else pos
  else pos
termination_by 81 - pos

/-- The scan never moves backwards. -/
theorem Board.le_skipAssigned (b : Board) (pos : Nat) : pos ≤ b.skipAssigned pos := by
  induction pos using Board.skipAssigned.induct b with
  | case1 pos h1 h2 ih =>
    rw [Board.skipAssigned, if_pos h1, if_pos h2]
    omega
  | case2 pos h1 h2 =>
    rw [Board.skipAssigned, if_pos h1, if_neg h2]
  | case3 pos h1 =>
    rw [Board.skipAssigned, if_neg h1]

/-- Starting at or below 81 the scan stops at or below 81. -/
theorem Board.skipAssigned_le (b : Board) (pos : Nat) (h : pos ≤ 81) :
    b.skipAssigned pos ≤ 81 := by
  induction pos using Board.skipAssigned.induct b with
  | case1 pos h1 h2 ih =>
    rw [Board.skipAssigned, if_pos h1, if_pos h2]
    exact ih (by omega)
  | case2 pos h1 h2 =>
    rw [Board.skipAssigned, if_pos h1, if_neg h2]
    omega
  | case3 pos h1 =>
    rw [Board.skipAssigned, if_neg h1]
    omega

/-- If the scan stops strictly below 81, it stops on an unassigned cell. -/
theorem Board.skipAssigned_empty (b : Board) (pos : Nat)
    (h : b.skipAssigned pos < 81) : (b (b.skipAssigned pos)).assigned_ = 0 := by
  induction pos using Board.skipAssigned.induct b with
  | case1 pos h1 h2 ih =>
    rw [Board.skipAssigned, if_pos h1, if_pos h2] at h ⊢
    exact ih h
  | case2 pos h1 h2 =>
    rw [Board.skipAssigned, if_pos h1, if_neg h2] at h ⊢
    omega
  | case3 pos h1 =>
    rw [Board.skipAssigned, if_neg h1] at h
    omega

/-- Every cell the scan skipped over is assigned. -/
theorem Board.skipAssigned_scanned (b : Board) (pos i : Nat)
    (hlo : pos ≤ i) (hhi : i < b.skipAssigned pos) : (b i).assigned_ ≠ 0 := by
  induction pos using Board.skipAssigned.induct b with
  | case1 pos h1 h2 ih =>
    rw [Board.skipAssigned, if_pos h1, if_pos h2] at hhi
    by_cases hip : i = pos
    · rwa [hip]
    · exact ih (by omega) hhi
  | case2 pos h1 h2 =>
    rw [Board.skipAssigned, if_pos h1, if_neg h2] at hhi
    omega
  | case3 pos h1 =>
    rw [Board.skipAssigned, if_neg h1] at hhi
    omega

/-- `Board::find(int pos)`: scan forward to the first unassigned cell; at
81 emit the board (the `print()` call, modelled as producing the board in
the emission list); on a cell with no candidates return nothing; otherwise
try each digit 1..9 in ascending order on a copy, exactly as the source's
`for (int dig = 1; dig <= 9; ++dig)` loop does, and concatenate the
emissions. -/
def Board.find (b : Board) (pos : Nat) : List Board :=
  if h1 : b.skipAssigned pos < 81 then
    if (b (b.skipAssigned pos)).assignable then
      (if (b (b.skipAssigned pos)).assignableDig 1 then
        (b.assign (b.skipAssigned pos) 1).find (b.skipAssigned pos) else []) ++
      ((if (b (b.skipAssigned pos)).assignableDig 2 then
        (b.assign (b.skipAssigned pos) 2).find (b.skipAssigned pos) else []) ++
      ((if (b (b.skipAssigned pos)).assignableDig 3 then
        (b.assign (b.skipAssigned pos) 3).find (b.skipAssigned pos) else []) ++
      ((if (b (b.skipAssigned pos)).assignableDig 4 then
        (b.assign (b.skipAssigned pos) 4).find (b.skipAssigned pos) else []) ++
      ((if (b (b.skipAssigned pos)).assignableDig 5 then
        (b.assign (b.skipAssigned pos) 5).find (b.skipAssigned pos) else []) ++
      ((if (b (b.skipAssigned pos)).assignableDig 6 then
        (b.assign (b.skipAssigned pos) 6).find (b.skipAssigned pos) else []) ++
      ((if (b (b.skipAssigned pos)).assignableDig 7 then
        (b.assign (b.skipAssigned pos) 7).find (b.skipAssigned pos) else []) ++
      ((if (b (b.skipAssigned pos)).assignableDig 8 then
        (b.assign (b.skipAssigned pos) 8).find (b.skipAssigned pos) else []) ++
      (if (b (b.skipAssigned pos)).assignableDig 9 then
        (b.assign (b.skipAssigned pos) 9).find (b.skipAssigned pos) else []))))))))
    else []
  else [b]
termination_by b.emptyCount
decreasing_by
  all_goals
    exact Board.emptyCount_assign_lt b _ _ h1 (Board.skipAssigned_empty b pos h1) (by decide)

/-- One digit's branch of the `for (dig = 1..9)` loop in `Board::find`. -/
def Board.digitBranch (b : Board) (q dig : Nat) : List Board :=
  if (b q).assignableDig dig then (b.assign q dig).find q else []

/-- `find` emits the board itself when the scan reaches 81. -/
theorem Board.find_emit (b : Board) (pos : Nat)
    (h1 : ¬ b.skipAssigned pos < 81) : b.find pos = [b] := by
  rw [Board.find.eq_def, dif_neg h1]

/-- `find` emits nothing when the first unassigned cell has no candidates. -/
theorem Board.find_dead (b : Board) (pos : Nat)
    (h1 : b.skipAssigned pos < 81)
    (h2 : (b (b.skipAssigned pos)).assignable = false) : b.find pos = [] := by
  rw [Board.find.eq_def, dif_pos h1, h2]
  simp

/-- `find` concatenates the nine digit branches, ascending, when the first
unassigned cell has candidates. -/
theorem Board.find_branch (b : Board) (pos : Nat)
    (h1 : b.skipAssigned pos < 81)
    (h2 : (b (b.skipAssigned pos)).assignable = true) :
    b.find pos =
      b.digitBranch (b.skipAssigned pos) 1 ++
      (b.digitBranch (b.skipAssigned pos) 2 ++
      (b.digitBranch (b.skipAssigned pos) 3 ++
      (b.digitBranch (b.skipAssigned pos) 4 ++
      (b.digitBranch (b.skipAssigned pos) 5 ++
      (b.digitBranch (b.skipAssigned pos) 6 ++
      (b.digitBranch (b.skipAssigned pos) 7 ++
      (b.digitBranch (b.skipAssigned pos) 8 ++
      b.digitBranch (b.skipAssigned pos) 9))))))) := by
  rw [Board.find.eq_def, dif_pos h1, h2]
  simp only [Board.digitBranch, if_true]

/-- The visibility relation is symmetric. -/
theorem sees_symm (p q : Nat) : sees p q ↔ sees q p := by
  unfold sees
  omega

/-- The claimed global invariant: no row, column, or 3×3 box contains two
cells assigned the same digit. -/
abbrev Board.rowColBoxOk (b : Board) : Prop :=
  ∀ i, i < 81 → ∀ j, j < 81 → i ≠ j → sees i j →
    (b i).assigned_ ≠ 0 → (b i).assigned_ ≠ (b j).assigned_

instance Board.rowColBoxOkDec (b : Board) : Decidable b.rowColBoxOk :=
  Nat.decidableBallLT 81 _

/-- All 81 cells carry an assigned digit in 1..9. -/
abbrev Board.fullyAssigned (b : Board) : Prop :=
  ∀ i, i < 81 → 1 ≤ (b i).assigned_ ∧ (b i).assigned_ ≤ 9

/-- Strengthened invariant maintained by candidate-confirmed `assign`
calls: assigned digits are at most 9, every assigned digit has been
propagated out of the candidate sets of all its peers, and no row,
column, or box holds a duplicate. -/
def Board.Wf (b : Board) : Prop :=
  (∀ i, i < 81 → (b i).assigned_ ≤ 9) ∧
  (∀ i, i < 81 → ∀ j, j < 81 → j ≠ i → sees i j → (b i).assigned_ ≠ 0 →
      (b j).assignableDig ((b i).assigned_) = false) ∧
  b.rowColBoxOk

/-- A default-constructed board satisfies the invariant. -/
theorem Board.Wf_init : Board.init.Wf := by
  refine ⟨?_, ?_, ?_⟩
  · intro i hi
    simp [Board.init, Cell.init]
  · intro i hi j hj hji hs h0
    simp [Board.init, Cell.init] at h0
  · intro i hi j hj hne hs h0
    simp [Board.init, Cell.init] at h0

/-- An `assign` whose digit is a current candidate of its (in-range) cell
preserves the invariant.  This is the "Guarantee" clause of the spec's
`assign` contract. -/
theorem Board.Wf_assign (b : Board) (pos dig : Nat) (hb : b.Wf)
    (hpos : pos < 81) (hd1 : 1 ≤ dig) (hd9 : dig ≤ 9)
    (hcand : (b pos).assignableDig dig = true) : (b.assign pos dig).Wf := by
  obtain ⟨hle, hprop, hok⟩ := hb
  have hnopeer : ∀ j, j < 81 → j ≠ pos → sees pos j → (b j).assigned_ ≠ dig := by
    intro j hj hne hs heq
    have hfalse := hprop j hj pos hpos (Ne.symm hne) ((sees_symm pos j).mp hs)
      (by rw [heq]; omega)
    rw [heq, hcand] at hfalse
    exact absurd hfalse (by simp)
  refine ⟨?_, ?_, ?_⟩
  · intro i hi
    rw [Board.assign_assigned]
    by_cases hip : i = pos
    · rw [if_pos hip]
      exact hd9
    · rw [if_neg hip]
      exact hle i hi
  · intro i hi j hj hji hs hne0
    rw [Board.assign_assigned] at hne0 ⊢
    by_cases hip : i = pos
    · rw [if_pos hip] at hne0 ⊢
      subst hip
      have hjmem : j ∈ unitPositions i := (mem_unitPositions i j hpos).mpr ⟨hj, hs⟩
      rw [Cell.assignableDig_eq_testBit, Board.assign_assignable, if_pos hjmem,
        Nat.testBit_land, mask_testBit_self dig (by omega), Bool.and_false]
    · rw [if_neg hip] at hne0 ⊢
      have hold := hprop i hi j hj hji hs hne0
      rw [Cell.assignableDig_eq_testBit] at hold ⊢
      rw [Board.assign_assignable]
      by_cases hjmem : j ∈ unitPositions pos
      · rw [if_pos hjmem, Nat.testBit_land, hold, Bool.false_and]
      · rw [if_neg hjmem]
        exact hold
  · intro i hi j hj hne hs hne0
    rw [Board.assign_assigned] at hne0 ⊢
    rw [Board.assign_assigned]
    by_cases hip : i = pos
    · rw [if_pos hip] at hne0 ⊢
      subst hip
      have hjp : j ≠ i := Ne.symm hne
      rw [if_neg hjp]
      exact fun h => hnopeer j hj hjp hs h.symm
    · rw [if_neg hip] at hne0 ⊢
      by_cases hjp : j = pos
      · rw [if_pos hjp]
        subst hjp
        exact fun h => hnopeer i hi hip ((sees_symm i j).mp hs) h
      · rw [if_neg hjp]
        exact hok i hi j hj hne hs hne0

/-- Replay a list of `(position, digit)` assign calls, left to right. -/
def Board.assignSeq (b : Board) (ps : List (Nat × Nat)) : Board :=
  ps.foldl (fun bb pd => bb.assign pd.1 pd.2) b

/-- Checker for a mutually non-conflicting call sequence: every call is in
range and its digit is a candidate of its cell at the moment of the call. -/
def Board.validSeqB : Board → List (Nat × Nat) → Bool
  | _, [] => true
  | b, (pos, dig) :: rest =>
    decide (pos < 81) && decide (1 ≤ dig) && decide (dig ≤ 9) &&
      (b pos).assignableDig dig && Board.validSeqB (b.assign pos dig) rest

/-- Replaying a valid call sequence preserves the invariant. -/
theorem Board.Wf_assignSeq (ps : List (Nat × Nat)) (b : Board) (hb : b.Wf)
    (hv : b.validSeqB ps = true) : (b.assignSeq ps).Wf := by
  induction ps generalizing b with
  | nil => exact hb
  | cons pd rest ih =>
    obtain ⟨pos, dig⟩ := pd
    rw [Board.validSeqB] at hv
    simp only [Bool.and_eq_true, decide_eq_true_eq] at hv
    obtain ⟨⟨⟨⟨hpos, hd1⟩, hd9⟩, hcand⟩, hrest⟩ := hv
    exact ih (b.assign pos dig) (Board.Wf_assign b pos dig hb hpos hd1 hd9 hcand) hrest

/-- Splitting a replay at any point. -/
theorem Board.assignSeq_append (b : Board) (ps qs : List (Nat × Nat)) :
    b.assignSeq (ps ++ qs) = (b.assignSeq ps).assignSeq qs :=
  List.foldl_append _ _ _ _

/-- A prefix of a valid call sequence is valid. -/
theorem Board.validSeqB_append_left (ps qs : List (Nat × Nat)) (b : Board)
    (hv : b.validSeqB (ps ++ qs) = true) : b.validSeqB ps = true := by
  induction ps generalizing b with
  | nil => rfl
  | cons pd rest ih =>
    obtain ⟨pos, dig⟩ := pd
    rw [List.cons_append, Board.validSeqB] at hv
    rw [Board.validSeqB]
    simp only [Bool.and_eq_true] at hv ⊢
    exact ⟨hv.1, ih (b.assign pos dig) hv.2⟩

/-- Soundness of the enumeration: under the invariant, with all cells
before `pos` assigned, every board emitted by `find` is fully assigned
with digits 1..9 and satisfies the row/column/box invariant. -/
theorem Board.find_sound : ∀ (n : Nat) (b : Board) (pos : Nat), b.emptyCount = n → b.Wf →
    (∀ i, i < pos → (b i).assigned_ ≠ 0) →
    ∀ s, s ∈ b.find pos → s.fullyAssigned ∧ s.rowColBoxOk := by
  intro n
  induction n using Nat.strongRecOn with
  | ind n ih =>
    intro b pos hn hwf hpre s hs
    by_cases h1 : b.skipAssigned pos < 81
    · by_cases h2 : (b (b.skipAssigned pos)).assignable = true
      · rw [Board.find_branch b pos h1 h2] at hs
        have hgen : ∀ dig, 1 ≤ dig → dig ≤ 9 →
            s ∈ b.digitBranch (b.skipAssigned pos) dig →
            s.fullyAssigned ∧ s.rowColBoxOk := by
          intro dig hD1 hD9 hmem
          unfold Board.digitBranch at hmem
          by_cases hc : (b (b.skipAssigned pos)).assignableDig dig = true
          · rw [if_pos hc] at hmem
            have hlt : (b.assign (b.skipAssigned pos) dig).emptyCount < n := by
              rw [← hn]
              exact Board.emptyCount_assign_lt b _ _ h1
                (Board.skipAssigned_empty b pos h1) (by omega)
            have hwf2 := Board.Wf_assign b (b.skipAssigned pos) dig hwf h1 hD1 hD9 hc
            have hpre2 : ∀ i, i < b.skipAssigned pos →
                ((b.assign (b.skipAssigned pos) dig) i).assigned_ ≠ 0 := by
              intro i hi
              rw [Board.assign_assigned]
              by_cases hip : i = b.skipAssigned pos
              · rw [if_pos hip]
                omega
              · rw [if_neg hip]
                by_cases hip2 : pos ≤ i
                · exact Board.skipAssigned_scanned b pos i hip2 hi
                · exact hpre i (by omega)
            exact ih _ hlt _ _ rfl hwf2 hpre2 s hmem
          · rw [if_neg hc] at hmem
            simp at hmem
        simp only [List.mem_append] at hs
        rcases hs with h|h|h|h|h|h|h|h|h
        · exact hgen 1 (by omega) (by omega) h
        · exact hgen 2 (by omega) (by omega) h
        · exact hgen 3 (by omega) (by omega) h
        · exact hgen 4 (by omega) (by omega) h
        · exact hgen 5 (by omega) (by omega) h
        · exact hgen 6 (by omega) (by omega) h
        · exact hgen 7 (by omega) (by omega) h
        · exact hgen 8 (by omega) (by omega) h
        · exact hgen 9 (by omega) (by omega) h
      · rw [Board.find_dead b pos h1 (by simpa using h2)] at hs
        simp at hs
    · rw [Board.find_emit b pos h1] at hs
      simp only [List.mem_singleton] at hs
      subst hs
      refine ⟨?_, hwf.2.2⟩
      intro i hi
      have hne : (s i).assigned_ ≠ 0 := by
        by_cases hip : i < pos
        · exact hpre i hip
        · exact Board.skipAssigned_scanned s pos i (by omega) (by omega)
      have hle9 := hwf.1 i hi
      omega

/-- Exact candidate bookkeeping: a digit 1..9 is missing from a cell's
candidate set precisely when some cell of its row/column/box (possibly
itself) has been assigned that digit.  Holds along `assign` sequences that
only ever fill empty cells with candidate digits. -/
def Board.Exact (b : Board) : Prop :=
  ∀ i, i < 81 → ∀ d, 1 ≤ d → d ≤ 9 →
    ((b i).assignableDig d = false ↔ ∃ q, q < 81 ∧ sees q i ∧ (b q).assigned_ = d)

/-- A default-constructed board has exact candidate bookkeeping. -/
theorem Board.Exact_init : Board.init.Exact := by
  intro i hi d hd1 hd9
  constructor
  · intro h
    have hbit : (Board.init i).assignableDig d = true := by
      show Cell.init.assignableDig d = true
      interval_cases d <;> decide
    rw [hbit] at h
    exact absurd h (by simp)
  · rintro ⟨q, hq, hs, ha⟩
    have : (Board.init q).assigned_ = 0 := rfl
    omega

/-- Assigning a digit 1..9 to an empty in-range cell preserves exact
candidate bookkeeping. -/
theorem Board.Exact_assign (b : Board) (pos dig : Nat) (hb : b.Exact)
    (hpos : pos < 81) (hd1 : 1 ≤ dig) (hd9 : dig ≤ 9)
    (hempty : (b pos).assigned_ = 0) : (b.assign pos dig).Exact := by
  intro i hi d hD1 hD9
  constructor
  · intro h
    rw [Cell.assignableDig_eq_testBit, Board.assign_assignable] at h
    by_cases hmem : i ∈ unitPositions pos
    · by_cases hdd : d = dig
      · refine ⟨pos, hpos, ((mem_unitPositions pos i hpos).mp hmem).2, ?_⟩
        rw [Board.assign_assigned, if_pos rfl, hdd]
      · rw [if_pos hmem, Nat.testBit_land] at h
        have hm := mask_testBit_other dig d (by omega) hdd
        have hx : (b i).assignable_.testBit d = false := by
          cases hxb : (b i).assignable_.testBit d
          · rfl
          · rw [hxb, hm] at h
            exact absurd h (by simp)
        have hfold : (b i).assignableDig d = false := by
          rw [Cell.assignableDig_eq_testBit]
          exact hx
        obtain ⟨q, hq, hs, ha⟩ := (hb i hi d hD1 hD9).mp hfold
        refine ⟨q, hq, hs, ?_⟩
        rw [Board.assign_assigned]
        by_cases hqp : q = pos
        · rw [hqp, hempty] at ha
          omega
        · rw [if_neg hqp]
          exact ha
    · rw [if_neg hmem] at h
      have hfold : (b i).assignableDig d = false := by
        rw [Cell.assignableDig_eq_testBit]
        exact h
      obtain ⟨q, hq, hs, ha⟩ := (hb i hi d hD1 hD9).mp hfold
      refine ⟨q, hq, hs, ?_⟩
      rw [Board.assign_assigned]
      by_cases hqp : q = pos
      · rw [hqp, hempty] at ha
        omega
      · rw [if_neg hqp]
        exact ha
  · rintro ⟨q, hq, hs, ha⟩
    rw [Board.assign_assigned] at ha
    rw [Cell.assignableDig_eq_testBit, Board.assign_assignable]
    by_cases hqp : q = pos
    · rw [if_pos hqp] at ha
      subst hqp
      have hmem : i ∈ unitPositions q := (mem_unitPositions q i hpos).mpr ⟨hi, hs⟩
      rw [if_pos hmem, ← ha, Nat.testBit_land, mask_testBit_self dig (by omega),
        Bool.and_false]
    · rw [if_neg hqp] at ha
      have hold : (b i).assignableDig d = false := (hb i hi d hD1 hD9).mpr ⟨q, hq, hs, ha⟩
      rw [Cell.assignableDig_eq_testBit] at hold
      by_cases hmem : i ∈ unitPositions pos
      · rw [if_pos hmem, Nat.testBit_land, hold, Bool.false_and]
      · rw [if_neg hmem]
        exact hold

/-- A concrete full Sudoku grid, used as a completion witness. -/
def solGrid (i : Nat) : Nat :=
  (3 * (i / 9 % 3) + i / 9 / 3 + i % 9) % 9 + 1

/-- A full assignment of digits 1..9 with no duplicate in any row,
column, or box. -/
def validSolution (S : Nat → Nat) : Prop :=
  (∀ i, i < 81 → 1 ≤ S i ∧ S i ≤ 9) ∧
  (∀ i, i < 81 → ∀ j, j < 81 → i ≠ j → sees i j → S i ≠ S j)

/-- The concrete grid is a valid full solution. -/
theorem solGrid_valid : validSolution solGrid := by
  constructor
  · decide
  · decide

/-- The board's assigned cells agree with the full solution `S`. -/
def Board.agrees (b : Board) (S : Nat → Nat) : Prop :=
  ∀ i, i < 81 → (b i).assigned_ ≠ 0 → (b i).assigned_ = S i

/-- A default-constructed board agrees with any solution. -/
theorem Board.agrees_init (S : Nat → Nat) : Board.init.agrees S := by
  intro i hi h
  exact absurd rfl h

/-- Completeness of the enumeration: a board with exact candidate
bookkeeping that agrees with some valid full solution emits at least one
board. -/
theorem Board.find_hits : ∀ (n : Nat) (b : Board) (pos : Nat) (S : Nat → Nat),
    b.emptyCount = n → b.Exact → (∀ i, i < pos → (b i).assigned_ ≠ 0) →
    validSolution S → b.agrees S → ∃ s, s ∈ b.find pos := by
  intro n
  induction n using Nat.strongRecOn with
  | ind n ih =>
    intro b pos S hn hex hpre hS hag
    by_cases h1 : b.skipAssigned pos < 81
    · have hempty : (b (b.skipAssigned pos)).assigned_ = 0 :=
        Board.skipAssigned_empty b pos h1
      have hd := hS.1 (b.skipAssigned pos) h1
      have hcand : (b (b.skipAssigned pos)).assignableDig (S (b.skipAssigned pos)) = true := by
        by_contra hc
        rw [Bool.not_eq_true] at hc
        obtain ⟨p2, hp2, hs2, ha2⟩ :=
          (hex (b.skipAssigned pos) h1 (S (b.skipAssigned pos)) hd.1 hd.2).mp hc
        by_cases hpq : p2 = b.skipAssigned pos
        · rw [hpq, hempty] at ha2
          omega
        · have hagp := hag p2 hp2 (by rw [ha2]; omega)
          have hnedup := hS.2 p2 hp2 (b.skipAssigned pos) h1 hpq hs2
          omega
      have hassignable : (b (b.skipAssigned pos)).assignable = true :=
        Cell.assignable_of_assignableDig _ _ hcand
      have hlt : (b.assign (b.skipAssigned pos) (S (b.skipAssigned pos))).emptyCount < n := by
        rw [← hn]
        exact Board.emptyCount_assign_lt b _ _ h1 hempty (by omega)
      have hex2 := Board.Exact_assign b (b.skipAssigned pos) (S (b.skipAssigned pos))
        hex h1 hd.1 hd.2 hempty
      have hpre2 : ∀ i, i < b.skipAssigned pos →
          ((b.assign (b.skipAssigned pos) (S (b.skipAssigned pos))) i).assigned_ ≠ 0 := by
        intro i hi
        rw [Board.assign_assigned]
        by_cases hip : i = b.skipAssigned pos
        · rw [if_pos hip]
          omega
        · rw [if_neg hip]
          by_cases hip2 : pos ≤ i
          · exact Board.skipAssigned_scanned b pos i hip2 hi
          · exact hpre i (by omega)
      have hag2 : (b.assign (b.skipAssigned pos) (S (b.skipAssigned pos))).agrees S := by
        intro i hi hne
        rw [Board.assign_assigned] at hne ⊢
        by_cases hip : i = b.skipAssigned pos
        · rw [if_pos hip]
          rw [hip]
        · rw [if_neg hip] at hne ⊢
          exact hag i hi hne
      obtain ⟨s, hs⟩ := ih _ hlt _ (b.skipAssigned pos) S rfl hex2 hpre2 hS hag2
      have hmem : s ∈ b.digitBranch (b.skipAssigned pos) (S (b.skipAssigned pos)) := by
        unfold Board.digitBranch
        rw [if_pos hcand]
        exact hs
      refine ⟨s, ?_⟩
      rw [Board.find_branch b pos h1 hassignable]
      simp only [List.mem_append]
      have hd19 : S (b.skipAssigned pos) = 1 ∨ S (b.skipAssigned pos) = 2 ∨
          S (b.skipAssigned pos) = 3 ∨ S (b.skipAssigned pos) = 4 ∨
          S (b.skipAssigned pos) = 5 ∨ S (b.skipAssigned pos) = 6 ∨
          S (b.skipAssigned pos) = 7 ∨ S (b.skipAssigned pos) = 8 ∨
          S (b.skipAssigned pos) = 9 := by omega
      rcases hd19 with h9|h9|h9|h9|h9|h9|h9|h9|h9 <;> rw [h9] at hmem <;> tauto
    · rw [Board.find_emit b pos h1]
      exact ⟨b, by simp⟩

/-- Modelled from the spec: the enumeration order the spec describes —
repeatedly scan (from the start of the board) for the first empty cell in
row-major order, try candidate digits in ascending order 1..9 on a copy,
and emit the board when no empty cell remains. -/
def Board.specFind (b : Board) : List Board :=
  if h1 : b.skipAssigned 0 < 81 then
    if (b (b.skipAssigned 0)).assignable then
      (if (b (b.skipAssigned 0)).assignableDig 1 then
        (b.assign (b.skipAssigned 0) 1).specFind else []) ++
      ((if (b (b.skipAssigned 0)).assignableDig 2 then
        (b.assign (b.skipAssigned 0) 2).specFind else []) ++
      ((if (b (b.skipAssigned 0)).assignableDig 3 then
        (b.assign (b.skipAssigned 0) 3).specFind else []) ++
      ((if (b (b.skipAssigned 0)).assignableDig 4 then
        (b.assign (b.skipAssigned 0) 4).specFind else []) ++
      ((if (b (b.skipAssigned 0)).assignableDig 5 then
        (b.assign (b.skipAssigned 0) 5).specFind else []) ++
      ((if (b (b.skipAssigned 0)).assignableDig 6 then
        (b.assign (b.skipAssigned 0) 6).specFind else []) ++
      ((if (b (b.skipAssigned 0)).assignableDig 7 then
        (b.assign (b.skipAssigned 0) 7).specFind else []) ++
      ((if (b (b.skipAssigned 0)).assignableDig 8 then
        (b.assign (b.skipAssigned 0) 8).specFind else []) ++
      (if (b (b.skipAssigned 0)).assignableDig 9 then
        (b.assign (b.skipAssigned 0) 9).specFind else [])))))))) 
    else []
  else [b]
termination_by b.emptyCount
decreasing_by
  all_goals
    exact Board.emptyCount_assign_lt b _ _ h1 (Board.skipAssigned_empty b 0 h1) (by decide)

/-- One digit's branch of the spec-described enumeration. -/
def Board.specDigitBranch (b : Board) (q dig : Nat) : List Board :=
  if (b q).assignableDig dig then (b.assign q dig).specFind else []

/-- `specFind` emits the board itself when the scan reaches 81. -/
theorem Board.specFind_emit (b : Board)
    (h1 : ¬ b.skipAssigned 0 < 81) : b.specFind = [b] := by
  rw [Board.specFind.eq_def, dif_neg h1]

/-- `specFind` emits nothing on a cell with no candidates. -/
theorem Board.specFind_dead (b : Board)
    (h1 : b.skipAssigned 0 < 81)
    (h2 : (b (b.skipAssigned 0)).assignable = false) : b.specFind = [] := by
  rw [Board.specFind.eq_def, dif_pos h1, h2]
  simp

/-- `specFind` concatenates the nine digit branches, ascending. -/
theorem Board.specFind_branch (b : Board)
    (h1 : b.skipAssigned 0 < 81)
    (h2 : (b (b.skipAssigned 0)).assignable = true) :
    b.specFind =
      b.specDigitBranch (b.skipAssigned 0) 1 ++
      (b.specDigitBranch (b.skipAssigned 0) 2 ++
      (b.specDigitBranch (b.skipAssigned 0) 3 ++
      (b.specDigitBranch (b.skipAssigned 0) 4 ++
      (b.specDigitBranch (b.skipAssigned 0) 5 ++
      (b.specDigitBranch (b.skipAssigned 0) 6 ++
      (b.specDigitBranch (b.skipAssigned 0) 7 ++
      (b.specDigitBranch (b.skipAssigned 0) 8 ++
      b.specDigitBranch (b.skipAssigned 0) 9))))))) := by
  rw [Board.specFind.eq_def, dif_pos h1, h2]
  simp only [Board.specDigitBranch, if_true]

/-- When every cell before `pos` is assigned, the scan from 0 and the
scan from `pos` stop at the same place. -/
theorem Board.skipAssigned_zero_eq (b : Board) :
    ∀ (pos : Nat), pos ≤ 81 → (∀ i, i < pos → (b i).assigned_ ≠ 0) →
    b.skipAssigned 0 = b.skipAssigned pos := by
  intro pos
  induction pos with
  | zero => intro _ _; rfl
  | succ p ihp =>
    intro hle hpre
    rw [ihp (by omega) (fun i hi => hpre i (by omega))]
    rw [Board.skipAssigned, if_pos (show p < 81 by omega), if_pos (hpre p (by omega))]

/-- The enumeration of `Board::find` from any scan start with all earlier
cells assigned equals the spec-described enumeration. -/
theorem Board.find_eq_specFind : ∀ (n : Nat) (b : Board) (pos : Nat),
    b.emptyCount = n → pos ≤ 81 → (∀ i, i < pos → (b i).assigned_ ≠ 0) →
    b.find pos = b.specFind := by
  intro n
  induction n using Nat.strongRecOn with
  | ind n ih =>
    intro b pos hn hle hpre
    have hskip : b.skipAssigned 0 = b.skipAssigned pos :=
      Board.skipAssigned_zero_eq b pos hle hpre
    by_cases h1 : b.skipAssigned pos < 81
    · by_cases h2 : (b (b.skipAssigned pos)).assignable = true
      · rw [Board.find_branch b pos h1 h2,
          Board.specFind_branch b (by rwa [hskip]) (by rwa [hskip]), hskip]
        have hempty : (b (b.skipAssigned pos)).assigned_ = 0 :=
          Board.skipAssigned_empty b pos h1
        have hbr : ∀ dig, 1 ≤ dig → dig ≤ 9 →
            b.digitBranch (b.skipAssigned pos) dig =
            b.specDigitBranch (b.skipAssigned pos) dig := by
          intro dig hD1 hD9
          unfold Board.digitBranch Board.specDigitBranch
          by_cases hc : (b (b.skipAssigned pos)).assignableDig dig = true
          · rw [if_pos hc, if_pos hc]
            have hlt : (b.assign (b.skipAssigned pos) dig).emptyCount < n := by
              rw [← hn]
              exact Board.emptyCount_assign_lt b _ _ h1 hempty (by omega)
            apply ih _ hlt _ (b.skipAssigned pos) rfl (by omega)
            intro i hi
            rw [Board.assign_assigned]
            by_cases hip : i = b.skipAssigned pos
            · rw [if_pos hip]
              omega
            · rw [if_neg hip]
              by_cases hip2 : pos ≤ i
              · exact Board.skipAssigned_scanned b pos i hip2 hi
              · exact hpre i (by omega)
          · rw [if_neg hc, if_neg hc]
        rw [hbr 1 (by omega) (by omega), hbr 2 (by omega) (by omega),
          hbr 3 (by omega) (by omega), hbr 4 (by omega) (by omega),
          hbr 5 (by omega) (by omega), hbr 6 (by omega) (by omega),
          hbr 7 (by omega) (by omega), hbr 8 (by omega) (by omega),
          hbr 9 (by omega) (by omega)]
      · rw [Board.find_dead b pos h1 (by simpa using h2),
          Board.specFind_dead b (by rwa [hskip]) (by rw [hskip]; simpa using h2)]
    · rw [Board.find_emit b pos h1, Board.specFind_emit b (by rwa [hskip])]

/-- `Board::print()`: the characters written to the output stream for one
board.  `cout << x.assigned_` prints the decimal representation of the
int, an unassigned cell prints '_', a single space follows columns 2 and
5, each row ends with a newline, and one extra newline (a blank line)
follows the nine rows. -/
def Board.printChars (b : Board) : List Char :=
  ((List.range 9).foldr (fun r acc =>
    ((List.range 9).foldr (fun c acc2 =>
      (if (b (r * 9 + c)).assigned_ ≠ 0 then (Nat.repr (b (r * 9 + c)).assigned_).toList
       else ['_']) ++
      ((if c = 2 ∨ c = 5 then [' '] else []) ++ acc2)) []) ++
    ('\n' :: acc)) []) ++ ['\n']

/-- The character for the digit assigned at row `r`, column `c`. -/
def digitChar (b : Board) (r c : Nat) : Char :=
  Char.ofNat (48 + (b (r * 9 + c)).assigned_)

/-- Modelled from the spec: one rendered row — the nine digits of row `r`
in column order with a single space after the 3rd and the 6th digit,
ending in a newline. -/
def specRenderRow (b : Board) (r : Nat) : List Char :=
  [digitChar b r 0, digitChar b r 1, digitChar b r 2, ' ',
   digitChar b r 3, digitChar b r 4, digitChar b r 5, ' ',
   digitChar b r 6, digitChar b r 7, digitChar b r 8, '\n']

/-- Modelled from the spec: nine rendered rows followed by a blank line. -/
def specRender (b : Board) : List Char :=
  specRenderRow b 0 ++ (specRenderRow b 1 ++ (specRenderRow b 2 ++
    (specRenderRow b 3 ++ (specRenderRow b 4 ++ (specRenderRow b 5 ++
    (specRenderRow b 6 ++ (specRenderRow b 7 ++ (specRenderRow b 8 ++
    ['\n']))))))))

/-- Decimal representation of a digit 1..9 is its single character. -/
theorem repr_digit_toList (d : Nat) (h1 : 1 ≤ d) (h9 : d ≤ 9) :
    (Nat.repr d).toList = [Char.ofNat (48 + d)] := by
  interval_cases d <;> decide

/-- On a fully assigned board, `Board::print` produces exactly the
spec-described rendering. -/
theorem Board.printChars_eq_specRender (b : Board) (h : b.fullyAssigned) :
    b.printChars = specRender b := by
  have hcell : ∀ p, p < 81 →
      (if (b p).assigned_ = 0 then (['_'] : List Char)
        else ((b p).assigned_.repr.data : List Char))
        = [Char.ofNat (48 + (b p).assigned_)] := by
    intro p hp
    have hb := h p hp
    rw [if_neg (by omega)]
    exact repr_digit_toList _ hb.1 hb.2
  unfold Board.printChars specRender specRenderRow digitChar
  rw [show List.range 9 = [0, 1, 2, 3, 4, 5, 6, 7, 8] from rfl]
  simp [hcell]

/-- The C library `isdigit` on an ASCII byte: true exactly for the
characters '0' through '9'. -/
def isDigitChar (c : Char) : Bool :=
  48 ≤ c.toNat && c.toNat ≤ 57

/-- The state of `main`'s input loop: the board under construction, the
running cell counter `pos`, and — for specification purposes — the
`(position, digit)` pair of every `assign` call issued so far. -/
structure ParseState where
  board : Board
  pos : Nat
  calls : List (Nat × Nat)

/-- One step of `main`'s character loop: '_' advances the counter; a
digit character calls `assign(pos, c - '0')` when the counter is below 81
and always advances the counter; every other character is ignored. -/
def parseChar (s : ParseState) (c : Char) : ParseState :=
  if c = '_' then { s with pos := s.pos + 1 }
  else if isDigitChar c then
    if s.pos < 81 then
      { board := s.board.assign s.pos (c.toNat - 48), pos := s.pos + 1,
        calls := s.calls ++ [(s.pos, c.toNat - 48)] }
    else { s with pos := s.pos + 1 }
  else s

/-- The parser state at the top of `main`: default board, counter 0. -/
def initState : ParseState :=
  { board := Board.init, pos := 0, calls := [] }

/-- `main`'s input loop over a whole character stream. -/
def parseInput (cs : List Char) : ParseState :=
  cs.foldl parseChar initState

/-- `main` after the loop: the cell-count check, then `find(0)`; a failed
check throws `std::runtime_error` with the message built in the source. -/
def mainRun (cs : List Char) : Except String (List Board) :=
  if (parseInput cs).pos ≠ 81 then
    Except.error ("Invalid board: " ++ Nat.repr (parseInput cs).pos)
  else Except.ok ((parseInput cs).board.find 0)

/-- A character advances the parser counter exactly when it is '_' or a
digit character '0'..'9', by one. -/
theorem parse_foldl_pos (cs : List Char) : ∀ (s : ParseState),
    (cs.foldl parseChar s).pos =
      s.pos + cs.countP (fun c => c == '_' || isDigitChar c) := by
  induction cs with
  | nil =>
    intro s
    simp [List.countP_nil]
  | cons c rest ih =>
    intro s
    rw [List.foldl_cons, ih, List.countP_cons]
    by_cases h1 : c = '_'
    · rw [parseChar, if_pos h1]
      simp [h1]
      omega
    · by_cases h2 : isDigitChar c = true
      · rw [parseChar, if_neg h1, if_pos h2]
        by_cases h3 : s.pos < 81
        · rw [if_pos h3]
          simp only [h2, Bool.or_true, if_pos]
          omega
        · rw [if_neg h3]
          simp only [h2, Bool.or_true, if_pos]
          omega
      · rw [parseChar, if_neg h1, if_neg h2]
        have hbeq : (c == '_') = false := by
          simp [h1]
        simp [hbeq, h2]

/-- Characters that are neither '_' nor digits leave the whole parser
state unchanged. -/
theorem parseChar_other (s : ParseState) (c : Char)
    (h1 : ¬ c = '_') (h2 : isDigitChar c = false) : parseChar s c = s := by
  rw [parseChar, if_neg h1, h2]
  simp

/-- A digit character arriving when the counter is at least 81 advances
the counter but issues no `assign` call and leaves the board unchanged. -/
theorem parseChar_digit_overflow (s : ParseState) (c : Char)
    (h2 : isDigitChar c = true) (h3 : ¬ s.pos < 81) :
    parseChar s c = { s with pos := s.pos + 1 } := by
  by_cases h1 : c = '_'
  · rw [parseChar, if_pos h1]
  · rw [parseChar, if_neg h1, if_pos h2, if_neg h3]

/-- The parser's board is exactly the replay of the `assign` calls it has
issued, and every issued call has position below 81 and digit at most 9. -/
theorem parse_foldl_invariant (cs : List Char) : ∀ (s : ParseState),
    s.board = Board.init.assignSeq s.calls →
    (∀ pd ∈ s.calls, pd.1 < 81 ∧ pd.2 ≤ 9) →
    (cs.foldl parseChar s).board = Board.init.assignSeq (cs.foldl parseChar s).calls ∧
    (∀ pd ∈ (cs.foldl parseChar s).calls, pd.1 < 81 ∧ pd.2 ≤ 9) := by
  induction cs with
  | nil =>
    intro s hb hc
    exact ⟨hb, hc⟩
  | cons c rest ih =>
    intro s hb hc
    rw [List.foldl_cons]
    by_cases h1 : c = '_'
    · exact ih _ (by rw [parseChar, if_pos h1]; exact hb)
        (by rw [parseChar, if_pos h1]; exact hc)
    · by_cases h2 : isDigitChar c = true
      · by_cases h3 : s.pos < 81
        · apply ih
          · rw [parseChar, if_neg h1, if_pos h2, if_pos h3]
            show s.board.assign s.pos (c.toNat - 48) =
              Board.init.assignSeq (s.calls ++ [(s.pos, c.toNat - 48)])
            rw [Board.assignSeq_append, ← hb]
            rfl
          · rw [parseChar, if_neg h1, if_pos h2, if_pos h3]
            intro pd hpd
            rw [List.mem_append] at hpd
            rcases hpd with hpd | hpd
            · exact hc pd hpd
            · rw [List.mem_singleton] at hpd
              subst hpd
              refine ⟨h3, ?_⟩
              unfold isDigitChar at h2
              simp only [Bool.and_eq_true, decide_eq_true_eq] at h2
              omega
        · rw [parseChar_digit_overflow s c h2 h3]
          exact ih _ hb hc
      · rw [parseChar_other s c h1 (by simpa using h2)]
        exact ih _ hb hc

/-- C1: Soundness of enumeration — for every initial board built by a
mutually non-conflicting sequence of `assign` calls on a default board,
every board emitted by `find(0)` has all 81 cells assigned a digit in
1..9 and satisfies the row/column/box uniqueness invariant. -/
theorem C1_enumeration_soundness (ps : List (Nat × Nat))
    (hv : Board.init.validSeqB ps = true) :
    ((Board.init.assignSeq ps).find 0).all
      (fun s => decide (s.fullyAssigned ∧ s.rowColBoxOk)) = true := by
  rw [List.all_eq_true]
  intro s hsm
  rw [decide_eq_true_eq]
  exact Board.find_sound ((Board.init.assignSeq ps).emptyCount) _ 0 rfl
    (Board.Wf_assignSeq ps Board.init Board.Wf_init hv)
    (fun i hi => absurd hi (Nat.not_lt_zero i)) s hsm

/-- C1 witness: a concrete non-conflicting two-call sequence. -/
theorem C1_witness :
    Board.init.validSeqB [(0, 5), (1, 6)] = true ∧
    ((Board.init.assignSeq [(0, 5), (1, 6)]).find 0).all
      (fun s => decide (s.fullyAssigned ∧ s.rowColBoxOk)) = true :=
  ⟨by decide, C1_enumeration_soundness [(0, 5), (1, 6)] (by decide)⟩

/-- C2: Invariant preservation — after each call of a mutually
non-conflicting `assign` sequence on an initially default board, no row,
column, or 3×3 box contains two cells assigned the same digit. -/
theorem C2_invariant_preservation (ps qs rest : List (Nat × Nat))
    (hsplit : ps = qs ++ rest) (hv : Board.init.validSeqB ps = true) :
    (Board.init.assignSeq qs).rowColBoxOk := by
  subst hsplit
  exact (Board.Wf_assignSeq qs Board.init Board.Wf_init
    (Board.validSeqB_append_left qs rest Board.init hv)).2.2

/-- C2 witness: the invariant after the first call of a concrete valid
two-call sequence. -/
theorem C2_witness :
    ([(0, 5), (1, 6)] : List (Nat × Nat)) = [(0, 5)] ++ [(1, 6)] ∧
    Board.init.validSeqB [(0, 5), (1, 6)] = true ∧
    (Board.init.assignSeq [(0, 5)]).rowColBoxOk :=
  ⟨rfl, by decide,
    C2_invariant_preservation [(0, 5), (1, 6)] [(0, 5)] [(1, 6)] rfl (by decide)⟩

/-- C3: Completeness on the empty board — `find(0)` on a default board
emits at least one board, and every emission is fully assigned and fully
consistent. -/
theorem C3_empty_board_completeness :
    Board.init.find 0 ≠ [] ∧
    (Board.init.find 0).all
      (fun s => decide (s.fullyAssigned ∧ s.rowColBoxOk)) = true := by
  constructor
  · obtain ⟨s, hs⟩ := Board.find_hits Board.init.emptyCount Board.init 0 solGrid rfl
      Board.Exact_init (fun i hi => absurd hi (Nat.not_lt_zero i)) solGrid_valid
      (Board.agrees_init solGrid)
    exact List.ne_nil_of_mem hs
  · rw [List.all_eq_true]
    intro s hsm
    rw [decide_eq_true_eq]
    exact Board.find_sound Board.init.emptyCount Board.init 0 rfl Board.Wf_init
      (fun i hi => absurd hi (Nat.not_lt_zero i)) s hsm

/-- C4: Candidate monotonicity — across any sequence of `assign` calls,
a digit that is a candidate of a cell afterwards was already a candidate
before: candidate sets never grow. -/
theorem C4_candidate_monotonicity (ps : List (Nat × Nat)) (b : Board) (i d : Nat)
    (h : ((b.assignSeq ps) i).assignableDig d = true) :
    (b i).assignableDig d = true := by
  induction ps generalizing b with
  | nil => exact h
  | cons pd rest ih =>
    rw [show b.assignSeq (pd :: rest) = (b.assign pd.1 pd.2).assignSeq rest from rfl] at h
    exact Board.assign_assignableDig_mono b pd.1 pd.2 i d (ih (b.assign pd.1 pd.2) h)

/-- C4 witness: a candidate surviving one assignment was there before. -/
theorem C4_witness :
    ((Board.init.assignSeq [(0, 5)]) 10).assignableDig 7 = true ∧
    (Board.init 10).assignableDig 7 = true :=
  ⟨by decide, C4_candidate_monotonicity [(0, 5)] Board.init 10 7 (by decide)⟩

/-- C5 counterexample: contrary to the claim that the candidate set of
the assigned cell itself is unchanged, `assign(0, 5)` on a default board
changes cell 0's own candidate mask (the propagation loops include the
target cell, and `cant_assign` acts even on an assigned cell). -/
theorem C5_counterexample :
    ¬ ((Board.init.assign 0 5) 0).assignable_ = (Board.init 0).assignable_ := by
  decide

/-- C5 (amended): after `assign(pos, dig)` the digit is removed from the
candidate sets of exactly the 21 in-range cells of `pos`'s row, column,
and box — the 20 peers and the cell `pos` itself, assigned or not; all
their other candidate bits, and all cells outside the row/column/box, are
unchanged; `assigned_` changes only at `pos`. -/
theorem C5_assign_frame (b : Board) (pos dig i : Nat)
    (hpos : pos < 81) (hd1 : 1 ≤ dig) (hd9 : dig ≤ 9) (hi : i < 81) :
    ((b.assign pos dig i).assigned_ = if i = pos then dig else (b i).assigned_) ∧
    (sees pos i → (b.assign pos dig i).assignableDig dig = false) ∧
    (sees pos i → ∀ k, k ≤ 9 → k ≠ dig →
      (b.assign pos dig i).assignableDig k = (b i).assignableDig k) ∧
    (¬ sees pos i → b.assign pos dig i = b i) := by
  refine ⟨Board.assign_assigned b pos dig i, ?_, ?_, ?_⟩
  · intro hs
    have hmem : i ∈ unitPositions pos := (mem_unitPositions pos i hpos).mpr ⟨hi, hs⟩
    rw [Cell.assignableDig_eq_testBit, Board.assign_assignable, if_pos hmem,
      Nat.testBit_land, mask_testBit_self dig (by omega), Bool.and_false]
  · intro hs k hk9 hkd
    have hmem : i ∈ unitPositions pos := (mem_unitPositions pos i hpos).mpr ⟨hi, hs⟩
    rw [Cell.assignableDig_eq_testBit, Cell.assignableDig_eq_testBit,
      Board.assign_assignable, if_pos hmem, Nat.testBit_land,
      mask_testBit_other dig k (by omega) hkd, Bool.and_true]
  · intro hns
    have hnp : i ≠ pos := fun he => hns (by rw [he]; exact Or.inl rfl)
    have hnmem : i ∉ unitPositions pos :=
      fun hm => hns ((mem_unitPositions pos i hpos).mp hm).2
    rw [Board.assign_apply, if_neg hnmem]
    simp [Board.setCell, hnp]

/-- C5 witness: digit 3 disappears from a row peer of cell 10, and a cell
outside the row/column/box of 10 is untouched. -/
theorem C5_witness :
    (Board.init.assign 10 3 11).assignableDig 3 = false ∧
    Board.init.assign 10 3 25 = Board.init 25 :=
  ⟨(C5_assign_frame Board.init 10 3 11 (by decide) (by decide) (by decide)
      (by decide)).2.1 (by decide),
   (C5_assign_frame Board.init 10 3 25 (by decide) (by decide) (by decide)
      (by decide)).2.2.2 (by decide)⟩

/-- C6: Deterministic enumeration order — `find(0)` produces exactly the
emission sequence of the spec-described order: scan empty cells in
row-major order, try candidate digits in ascending order at each branch. -/
theorem C6_deterministic_order (b : Board) : b.find 0 = b.specFind :=
  Board.find_eq_specFind b.emptyCount b 0 rfl (by omega)
    (fun i hi => absurd hi (Nat.not_lt_zero i))

/-- C7 counterexample: contrary to the claim that only '1'..'9' and '_'
advance the position counter, the character '0' (accepted by `isdigit`)
also advances it. -/
theorem C7_counterexample : ¬ (parseInput ['0']).pos = 0 := by
  decide

/-- C7 (amended): exactly the characters '0'..'9' and '_' advance the
position counter, each by one; every other character leaves the whole
parser state unchanged; a digit character at counter `p < 81` issues the
call `assign(p, c - '0')`; and the parser's board is exactly the replay
of the calls it issued. -/
theorem C7_parser_characterisation :
    (∀ cs : List Char, (parseInput cs).pos =
      cs.countP (fun c => c == '_' || isDigitChar c)) ∧
    (∀ s c, ¬ c = '_' → isDigitChar c = false → parseChar s c = s) ∧
    (∀ s c, ¬ c = '_' → isDigitChar c = true → s.pos < 81 →
      parseChar s c = { board := s.board.assign s.pos (c.toNat - 48),
                        pos := s.pos + 1,
                        calls := s.calls ++ [(s.pos, c.toNat - 48)] }) ∧
    (∀ cs : List Char, (parseInput cs).board =
      Board.init.assignSeq (parseInput cs).calls) := by
  refine ⟨?_, parseChar_other, ?_, ?_⟩
  · intro cs
    rw [parseInput, parse_foldl_pos]
    simp [initState]
  · intro s c h1 h2 h3
    rw [parseChar, if_neg h1, if_pos h2, if_pos h3]
  · intro cs
    exact (parse_foldl_invariant cs initState rfl
      (fun pd hpd => absurd hpd (List.not_mem_nil pd))).1

/-- C7 witness: counter counts exactly the counted characters of a mixed
stream, and a non-counted character is a no-op. -/
theorem C7_witness :
    (parseInput ['5', 'x', '_']).pos = 2 ∧ parseChar initState 'x' = initState := by
  constructor
  · rw [C7_parser_characterisation.1 ['5', 'x', '_']]
    decide
  · exact C7_parser_characterisation.2.1 initState 'x' (by decide) (by decide)

/-- C8: the cell-count check — a final counter different from 81 produces
the fatal `Invalid board` error and `find` is never invoked; a final
counter of exactly 81 invokes `find(0)` on the parsed board. -/
theorem C8_cell_count_check (cs : List Char) :
    ((parseInput cs).pos ≠ 81 →
      mainRun cs = Except.error ("Invalid board: " ++ Nat.repr (parseInput cs).pos)) ∧
    ((parseInput cs).pos = 81 →
      mainRun cs = Except.ok ((parseInput cs).board.find 0)) := by
  constructor
  · intro h
    rw [mainRun, if_pos h]
  · intro h
    rw [mainRun, if_neg (by omega)]

/-- C8 witness: a one-character stream fails the check; 81 placeholders
pass it and reach `find(0)`. -/
theorem C8_witness :
    mainRun ['x'] = Except.error ("Invalid board: " ++ Nat.repr (parseInput ['x']).pos) ∧
    mainRun (List.replicate 81 '_') =
      Except.ok ((parseInput (List.replicate 81 '_')).board.find 0) :=
  ⟨(C8_cell_count_check ['x']).1 (by decide),
   (C8_cell_count_check (List.replicate 81 '_')).2 (by decide)⟩

/-- C9: Rendering format — on a fully assigned board, `Board::print`
emits nine lines, each holding that row's nine digits in column order
with a single space after the 3rd and the 6th digit, followed by one
blank line. -/
theorem C9_render_format (b : Board) (h : b.fullyAssigned) :
    b.printChars = specRender b :=
  Board.printChars_eq_specRender b h

/-- A concrete fully assigned board used to witness the render theorem. -/
def demoBoard : Board :=
  fun i => { assigned_ := i % 9 + 1, assignable_ := 0 }

/-- C9 witness: the render equality on a concrete fully assigned board. -/
theorem C9_witness :
    demoBoard.fullyAssigned ∧ demoBoard.printChars = specRender demoBoard :=
  ⟨by decide, C9_render_format demoBoard (by decide)⟩

/-- C10: Parser position safety — every `assign` call the parser issues
has position below 81, and a digit character arriving with the counter at
or above 81 advances the counter without issuing a call and without
touching the board. -/
theorem C10_parser_position_safety :
    (∀ cs : List Char, ∀ pd ∈ (parseInput cs).calls, pd.1 < 81) ∧
    (∀ s c, isDigitChar c = true → ¬ s.pos < 81 →
      parseChar s c = { s with pos := s.pos + 1 }) := by
  refine ⟨?_, parseChar_digit_overflow⟩
  intro cs pd hpd
  exact ((parse_foldl_invariant cs initState rfl
    (fun pd2 hpd2 => absurd hpd2 (List.not_mem_nil pd2))).2 pd hpd).1

/-- C10 witness: the call issued for a concrete digit stream is in range,
and a digit beyond the 81st counted cell only bumps the counter. -/
theorem C10_witness :
    (0 : Nat) < 81 ∧
    parseChar { board := Board.init, pos := 81, calls := [] } '7' =
      { board := Board.init, pos := 82, calls := [] } :=
  ⟨C10_parser_position_safety.1 ['5'] (0, 5) (by decide),
   C10_parser_position_safety.2 { board := Board.init, pos := 81, calls := [] } '7'
     (by decide) (by decide)⟩
